import Mathlib

/-!
Shallow embedding of the response-to-record parsing pipeline of
src/streamlit_app.py (MateriAI).  Strings are modelled as lists of
characters; the Python builtins used by the code (strip, split,
replace, lstrip) and the regular-expression substitution applied to
material names are translated as executable Lean functions over the
ASCII fragment of text they operate on.
-/

/-- Characters treated as whitespace by Python str.strip with no
arguments, restricted to ASCII. -/
def pyIsSpace (c : Char) : Bool :=
  c == ' ' || c == '\t' || c == '\n' || c == '\r' || c == '\x0b' || c == '\x0c'

/-- Removes the maximal run of trailing whitespace; the right half of
Python str.strip. -/
def dropTrailingSpace : List Char → List Char
  | [] => []
  | c :: rest =>
    if (dropTrailingSpace rest).isEmpty then (if pyIsSpace c then [] else [c])
    else c :: dropTrailingSpace rest

/-- Python str.strip with no arguments, on ASCII text. -/
def pyStrip (s : List Char) : List Char :=
  dropTrailingSpace (s.dropWhile pyIsSpace)

/-- Python str.split on a one-character separator: the list of chunks
between occurrences of the separator, empty chunks kept. -/
def splitChar (sep : Char) : List Char → List (List Char)
  | [] => [[]]
  | c :: rest =>
    if c = sep then [] :: splitChar sep rest
    else
      match splitChar sep rest with
      | [] => [[c]]
      | y :: ys => (c :: y) :: ys

/-- Python str.split on the two-character blank-line separator: scans
left to right, consuming non-overlapping occurrences of two consecutive
newline characters. -/
def splitNN : List Char → List (List Char)
  | [] => [[]]
  | [c] => [[c]]
  | c :: d :: rest =>
    if c = '\n' ∧ d = '\n' then [] :: splitNN rest
    else
      match splitNN (d :: rest) with
      | [] => [[c]]
      | y :: ys => (c :: y) :: ys

/-- The Python slice [1:-1]: everything but the first and last element. -/
def dropFirstLast (l : List α) : List α := (l.drop 1).dropLast

/-- Fuel-driven worker for removeAll; fuel at least the length of the
scanned string makes the scan total while keeping it computable by
plain reduction. -/
def removeAllGo : Nat → List Char → List Char → List Char
  | _, _, [] => []
  | 0, _, s => s
  | n + 1, pat, c :: rest =>
    if pat.isPrefixOf (c :: rest) && !pat.isEmpty then
      removeAllGo n pat (rest.drop (pat.length - 1))
    else c :: removeAllGo n pat rest

/-- Python str.replace with an empty replacement: removes every
non-overlapping occurrence of the pattern, scanning left to right. -/
def removeAll (pat s : List Char) : List Char := removeAllGo s.length pat s

/-- Python str.lstrip with the two-character argument of a hyphen and a
space: removes every leading character belonging to that set. -/
def pyLstripDashSpace (s : List Char) : List Char :=
  s.dropWhile (fun c => c == '-' || c == ' ')

/-- The anchored first alternative of the name regular expression: a
nonempty digit run, a period, then a greedy whitespace run, removed
from the front when it matches at position zero. -/
def stripOrdinal (s : List Char) : List Char :=
  let ds := s.takeWhile Char.isDigit
  if ds.isEmpty then s
  else
    match s.drop ds.length with
    | '.' :: rest => rest.dropWhile pyIsSpace
    | _ => s

/-- The second alternative of the name regular expression: one colon at
the very end of the line, removed when present. -/
def stripTrailingColon (s : List Char) : List Char :=
  if s.getLast? = some ':' then s.dropLast else s

/-- Model of the re.sub call on the first line of a block: the anchored
ordinal alternative fires at most once at position zero, the
colon-at-end alternative at most once, and the two matched regions
never overlap, so the substitution is their sequential removal. -/
def reSubNamePattern (s : List Char) : List Char :=
  stripTrailingColon (stripOrdinal s)

/-- The literal label removed from the second line of a block. -/
def propertiesLabel : List Char := "Properties: ".data

/-- The literal label removed from the third line of a block. -/
def prosLabel : List Char := "Pros: ".data

/-- The literal label removed from the fourth line of a block. -/
def consLabel : List Char := "Cons: ".data

/-- One recommended material as built by display_table, before image
enrichment: the four text fields of the ordered dictionary. -/
structure MaterialRecord where
  material : List Char
  properties : List Char
  pros : List Char
  cons : List Char
  deriving DecidableEq

/-- Record construction from the line list of one stripped paragraph
block, display_table lines 41 to 51.  Line reads are modelled with
getD; their in-bounds justification against the raising semantics of
Python indexing is established separately. -/
def recordFromLines (lines : List (List Char)) : Option MaterialRecord :=
  if 2 < lines.length then
    some
      { material := pyStrip (reSubNamePattern (lines.getD 0 [])),
        properties := pyStrip (pyLstripDashSpace (removeAll propertiesLabel (lines.getD 1 []))),
        pros := pyStrip (pyLstripDashSpace (removeAll prosLabel (lines.getD 2 []))),
        cons :=
          if 3 < lines.length then
            pyStrip (pyLstripDashSpace (removeAll consLabel (lines.getD 3 [])))
          else [] }
  else none

/-- Parsing of one paragraph chunk, display_table lines 37 to 51:
strip the chunk, skip it when empty, split it into lines and build a
record when there are more than two lines. -/
def parseBlock (material_info : List Char) : Option MaterialRecord :=
  let mi := pyStrip material_info
  if mi.isEmpty then none
  else recordFromLines (splitChar '\n' mi)

/-- The paragraph chunks display_table iterates over, line 32: strip
the raw response, split it on blank lines and drop the first and last
chunk. -/
def middleParagraphs (output : List Char) : List (List Char) :=
  dropFirstLast (splitNN (pyStrip output))

/-- Record extraction of display_table, lines 30 to 62, with the image
enrichment factored out: the ordered material records produced for a
raw response. -/
def display_table_records (output : List Char) : List MaterialRecord :=
  (middleParagraphs output).filterMap parseBlock

/-- The distinguished absence marker stored in the Image column when no
image is available. -/
def noImage : List Char := "No Image".data

/-- Image attachment of display_table lines 53 to 57: the Python
truthiness test on the returned value sends both the None produced by
the caught failure branch of get_image_from_dalle and an empty URL to
the No Image marker.  The external image call is an oracle argument. -/
def attachImage (get_image_from_dalle : List Char → Option (List Char))
    (description : List Char) : List Char :=
  match get_image_from_dalle description with
  | some url => if url.isEmpty then noImage else url
  | none => noImage

/-- A material record together with its Image column, as appended to
the materials list by display_table. -/
structure EnrichedRecord where
  base : MaterialRecord
  image : List Char
  deriving DecidableEq

/-- Per-record image enrichment over an ordered record list, as
performed inside the loop of display_table. -/
def enrich (get_image_from_dalle : List Char → Option (List Char))
    (recs : List MaterialRecord) : List EnrichedRecord :=
  recs.map (fun r => { base := r, image := attachImage get_image_from_dalle r.material })

/-- The action taken by main on a submitted description, lines 170 to
175: an input whose strip is falsy gets a validation warning and
nothing else runs; otherwise the raw text is handed to the summarizer,
which performs the Gateway call. -/
inductive SubmitAction where
  | rejectEmptyInput : SubmitAction
  | summarize : List Char → SubmitAction
  deriving DecidableEq

/-- Input validation of main, lines 170 to 175. -/
def handleSubmit (user_input : List Char) : SubmitAction :=
  if (pyStrip user_input).isEmpty then SubmitAction.rejectEmptyInput
  else SubmitAction.summarize user_input

/-- The composite field operation the code applies to a label line:
remove every occurrence of the label, strip leading bullet characters,
trim. -/
def labelField (label line : List Char) : List Char :=
  pyStrip (pyLstripDashSpace (removeAll label line))

/-- Modelled from the spec: section 4.4 step 7 describes the label as
stripped only when it occurs as a prefix of the line, with other text
left intact.  This definition follows those words for comparison with
the code. -/
def specLabelFieldPrefixOnly (label line : List Char) : List Char :=
  pyStrip (pyLstripDashSpace (if label.isPrefixOf line then line.drop label.length else line))

/-- Decidable occurrence test: the pattern appears as a contiguous
segment of the string. -/
def occurs (pat : List Char) : List Char → Bool
  | [] => pat.isEmpty
  | c :: rest => pat.isPrefixOf (c :: rest) || occurs pat rest

/-- Record construction with Python raising semantics for indexing: a
line read out of range returns the error outcome none instead of a
default, mirroring an IndexError aborting the loop body. -/
def recordFromLinesChecked (lines : List (List Char)) : Option (Option MaterialRecord) :=
  if 2 < lines.length then
    match lines[0]?, lines[1]?, lines[2]? with
    | some l0, some l1, some l2 =>
      if 3 < lines.length then
        match lines[3]? with
        | some l3 =>
          some (some
            { material := pyStrip (reSubNamePattern l0),
              properties := pyStrip (pyLstripDashSpace (removeAll propertiesLabel l1)),
              pros := pyStrip (pyLstripDashSpace (removeAll prosLabel l2)),
              cons := pyStrip (pyLstripDashSpace (removeAll consLabel l3)) })
        | none => none
      else
        some (some
          { material := pyStrip (reSubNamePattern l0),
            properties := pyStrip (pyLstripDashSpace (removeAll propertiesLabel l1)),
            pros := pyStrip (pyLstripDashSpace (removeAll prosLabel l2)),
            cons := [] })
    | _, _, _ => none
  else some none

/-- Block parsing with raising semantics for line indexing. -/
def parseBlockChecked (material_info : List Char) : Option (Option MaterialRecord) :=
  let mi := pyStrip material_info
  if mi.isEmpty then some none
  else recordFromLinesChecked (splitChar '\n' mi)

/-- The paragraph loop of display_table with raising semantics: the
error outcome of any block aborts the whole extraction. -/
def blocksChecked : List (List Char) → Option (List MaterialRecord)
  | [] => some []
  | b :: bs =>
    match parseBlockChecked b, blocksChecked bs with
    | some none, some rest => some rest
    | some (some r), some rest => some (r :: rest)
    | _, _ => none

/-- No two consecutive newline characters occur in the string. -/
def noNN : List Char → Bool
  | [] => true
  | [_] => true
  | c :: d :: rest => !(c == '\n' && d == '\n') && noNN (d :: rest)

/-- A line that is whitespace apart from at most one final colon. -/
def blankOrColonLine (s : List Char) : Bool :=
  s.all pyIsSpace ||
    (match s.getLast? with
     | some c => c == ':' && s.dropLast.all pyIsSpace
     | none => false)

/-- Shape of a first line whose derived name is empty: an optional
ordinal-number-and-period run followed by whitespace and an optional
final colon. -/
def nameVoidShape (s : List Char) : Bool :=
  blankOrColonLine (stripOrdinal s)

set_option maxRecDepth 100000

/-- C1: on the end-to-end example response, the record extraction of
display_table emits exactly the Aluminum record followed by the Steel
record, with the listed field values and an empty cons for Steel. -/
theorem c1_end_to_end_example :
    display_table_records ("Intro.\n\n1. Aluminum:\nProperties: - lightweight\nPros: - corrosion resistant\nCons: - costlier than steel\n\n2. Steel:\nProperties: - strong\nPros: - cheap\n\nOutro.").data =
      [{ material := "Aluminum".data, properties := "lightweight".data,
         pros := "corrosion resistant".data, cons := "costlier than steel".data },
       { material := "Steel".data, properties := "strong".data,
         pros := "cheap".data, cons := [] }] := by
  decide

theorem dropTrailingSpace_eq_nil_iff (t : List Char) :
    dropTrailingSpace t = [] ↔ t.all pyIsSpace = true := by
  induction t with
  | nil => simp [dropTrailingSpace]
  | cons c rest ih =>
    by_cases hr : (dropTrailingSpace rest).isEmpty
    · rw [List.isEmpty_iff] at hr
      by_cases hc : pyIsSpace c
      · simp [dropTrailingSpace, hr, hc, ih.mp hr]
      · simp [dropTrailingSpace, hr, hc]
    · rw [List.isEmpty_iff] at hr
      have : ¬ rest.all pyIsSpace = true := fun h => hr (ih.mpr h)
      simp [dropTrailingSpace, hr, this]

theorem all_dropWhile_self (p : Char → Bool) (t : List Char) :
    (t.dropWhile p).all p = t.all p := by
  induction t with
  | nil => rfl
  | cons c rest ih =>
    by_cases hc : p c
    · simp [List.dropWhile_cons_of_pos hc, ih, hc]
    · simp [List.dropWhile_cons_of_neg hc]

theorem pyStrip_eq_nil_iff (s : List Char) :
    pyStrip s = [] ↔ s.all pyIsSpace = true := by
  unfold pyStrip
  rw [dropTrailingSpace_eq_nil_iff, all_dropWhile_self]

theorem removeAllGo_of_not_occurs :
    ∀ (n : Nat) (pat t : List Char), occurs pat t = false → removeAllGo n pat t = t := by
  intro n
  induction n with
  | zero => intro pat t _; cases t <;> rfl
  | succ n ih =>
    intro pat t h
    cases t with
    | nil => rfl
    | cons c rest =>
      simp only [occurs, Bool.or_eq_false_iff] at h
      simp [removeAllGo, h.1, ih pat rest h.2]

theorem removeAll_of_not_occurs (pat t : List Char) (h : occurs pat t = false) :
    removeAll pat t = t :=
  removeAllGo_of_not_occurs _ _ _ h

theorem dropFirstLast_eq_nil_of_short (l : List α) (h : l.length < 3) :
    dropFirstLast l = [] := by
  have hlen : ((l.drop 1).dropLast).length = 0 := by
    simp only [List.length_dropLast, List.length_drop]
    omega
  exact List.eq_nil_of_length_eq_zero hlen

/-- C6: a raw response that splits into fewer than three paragraphs on
blank-line boundaries parses to an empty record list, because dropping
the first and last paragraph consumes the whole input. -/
theorem c6_short_input_empty (output : List Char)
    (h : (splitNN (pyStrip output)).length < 3) :
    display_table_records output = [] := by
  unfold display_table_records middleParagraphs
  rw [dropFirstLast_eq_nil_of_short _ h]
  rfl

/-- C6 witness: a two-paragraph response yields no record. -/
theorem c6_witness :
    (splitNN (pyStrip ("alpha\n\nomega").data)).length < 3 ∧
      display_table_records ("alpha\n\nomega").data = [] :=
  ⟨by decide, c6_short_input_empty _ (by decide)⟩

/-- C9: an input that is empty or all whitespace is rejected by the
validation branch of main; in particular no summarize action (and hence
no Gateway call) is produced for it. -/
theorem c9_whitespace_rejected (s : List Char) (h : s.all pyIsSpace = true) :
    handleSubmit s = SubmitAction.rejectEmptyInput ∧
      ∀ t, handleSubmit s ≠ SubmitAction.summarize t := by
  have hs : pyStrip s = [] := (pyStrip_eq_nil_iff s).mpr h
  constructor
  · simp [handleSubmit, hs]
  · intro t
    simp [handleSubmit, hs]

/-- C9 witness: a whitespace-only description is rejected. -/
theorem c9_witness :
    (" \t ").data.all pyIsSpace = true ∧
      handleSubmit (" \t ").data = SubmitAction.rejectEmptyInput :=
  ⟨by decide, (c9_whitespace_rejected _ (by decide)).1⟩

theorem getD_take (l : List α) (n i : Nat) (d : α) (h : i < n) :
    (l.take n).getD i d = l.getD i d := by
  induction l generalizing n i with
  | nil => simp
  | cons a l ih =>
    cases n with
    | zero => omega
    | succ n =>
      cases i with
      | zero => simp
      | succ i => simpa using ih n i (by omega)

/-- C10 amended: record construction reads nothing beyond the fourth
line of the split block, so on the line list the result only depends on
the first four lines. -/
theorem c10_take_four (ls : List (List Char)) :
    recordFromLines (ls.take 4) = recordFromLines ls := by
  unfold recordFromLines
  have hlen : (ls.take 4).length = min 4 ls.length := List.length_take 4 ls
  by_cases h2 : 2 < ls.length
  · have h2' : 2 < (ls.take 4).length := by omega
    rw [if_pos h2, if_pos h2']
    by_cases h3 : 3 < ls.length
    · have h3' : 3 < (ls.take 4).length := by omega
      rw [if_pos h3, if_pos h3',
        getD_take ls 4 0 [] (by omega), getD_take ls 4 1 [] (by omega),
        getD_take ls 4 2 [] (by omega), getD_take ls 4 3 [] (by omega)]
    · have h3' : ¬ 3 < (ls.take 4).length := by omega
      rw [if_neg h3, if_neg h3',
        getD_take ls 4 0 [] (by omega), getD_take ls 4 1 [] (by omega),
        getD_take ls 4 2 [] (by omega)]
  · have h2' : ¬ 2 < (ls.take 4).length := by omega
    rw [if_neg h2, if_neg h2']

/-- C10 counterexample: a five-line block whose third and fourth lines
are whitespace-only parses to a record, while the text of its first
four lines alone parses to nothing, because re-stripping the truncated
block drops it below the three-line minimum. -/
theorem c10_counterexample :
    parseBlock ("A\nb\n \n \nx").data =
        some { material := ("A").data, properties := ("b").data, pros := [], cons := [] } ∧
      parseBlock ("A\nb\n \n ").data = none := by
  decide

/-- C4 counterexample: the code removes the label everywhere in the
line, not only as a prefix.  On a line with a mid-line label occurrence
the parser deletes it, while the prefix-only rule of the claim leaves
the line intact. -/
theorem c4_counterexample :
    display_table_records ("Intro.\n\nAluminum:\nGood Properties: strong\nPros: p\n\nOutro.").data =
        [{ material := ("Aluminum").data, properties := ("Good strong").data,
           pros := ("p").data, cons := [] }] ∧
      specLabelFieldPrefixOnly propertiesLabel ("Good Properties: strong").data =
        ("Good Properties: strong").data ∧
      ("Good strong").data ≠ ("Good Properties: strong").data := by
  decide

/-- C4 amended: the properties, pros and cons fields are obtained from
lines one, two and three of the block by removing every occurrence of
the respective literal label (str.replace semantics, not prefix-only),
then stripping leading hyphen-bullet characters, then trimming; cons is
empty when the block has only three lines. -/
theorem c4_amended_fields (b : List Char) (r : MaterialRecord)
    (h : parseBlock b = some r) :
    r.properties = labelField propertiesLabel ((splitChar '\n' (pyStrip b)).getD 1 []) ∧
      r.pros = labelField prosLabel ((splitChar '\n' (pyStrip b)).getD 2 []) ∧
      r.cons =
        (if 3 < (splitChar '\n' (pyStrip b)).length then
          labelField consLabel ((splitChar '\n' (pyStrip b)).getD 3 [])
        else []) := by
  unfold parseBlock at h
  by_cases h0 : (pyStrip b).isEmpty
  · simp [h0] at h
  · simp only [h0, if_false, Bool.false_eq_true] at h
    unfold recordFromLines at h
    by_cases h2 : 2 < (splitChar '\n' (pyStrip b)).length
    · rw [if_pos h2] at h
      cases h
      exact ⟨rfl, rfl, rfl⟩
    · rw [if_neg h2] at h
      exact absurd h (by simp)

/-- C4 witness: the amended field rule evaluated on a concrete block. -/
theorem c4_witness :
    ({ material := ("A").data, properties := ("x").data,
       pros := ("y").data, cons := [] } : MaterialRecord).properties =
      labelField propertiesLabel
        ((splitChar '\n' (pyStrip ("1. A:\nProperties: x\nPros: y").data)).getD 1 []) :=
  (c4_amended_fields _ _ (by decide)).1

/-- C5 counterexample: the label-stripping operation used for the
properties field is not idempotent, because removing occurrences can
splice the surrounding text into a fresh occurrence of the label: both
the bare replace step and the full field operation change again on a
second application. -/
theorem c5_counterexample :
    labelField propertiesLabel
        (labelField propertiesLabel ("xProperProperties: ties: x").data) ≠
      labelField propertiesLabel ("xProperProperties: ties: x").data ∧
    removeAll propertiesLabel
        (removeAll propertiesLabel ("xProperProperties: ties: x").data) ≠
      removeAll propertiesLabel ("xProperProperties: ties: x").data := by
  decide

/-- C5 amended: a second application of the label removal changes
nothing whenever the once-stripped line no longer contains an
occurrence of the label; idempotence can only fail when removal splices
together a fresh occurrence. -/
theorem c5_amended_idempotent_without_residual (s : List Char)
    (h : occurs propertiesLabel (removeAll propertiesLabel s) = false) :
    removeAll propertiesLabel (removeAll propertiesLabel s) =
      removeAll propertiesLabel s :=
  removeAll_of_not_occurs _ _ h

/-- C5 witness: stripping an ordinary labelled line twice equals
stripping it once. -/
theorem c5_witness :
    occurs propertiesLabel (removeAll propertiesLabel ("Properties: light").data) = false ∧
      removeAll propertiesLabel (removeAll propertiesLabel ("Properties: light").data) =
        removeAll propertiesLabel ("Properties: light").data :=
  ⟨by decide, c5_amended_idempotent_without_residual _ (by decide)⟩

theorem attachImage_cases (f : List Char → Option (List Char)) (d : List Char) :
    attachImage f d ≠ [] ∧
      (attachImage f d = noImage ∨ f d = some (attachImage f d)) ∧
      ((f d = none ∨ f d = some []) → attachImage f d = noImage) := by
  unfold attachImage
  rcases hf : f d with _ | u
  · refine ⟨by decide, Or.inl rfl, fun _ => rfl⟩
  · by_cases hu : u = []
    · subst hu
      refine ⟨by decide, Or.inl rfl, fun _ => rfl⟩
    · have hue : u.isEmpty = false := by
        simp [List.isEmpty_iff, hu]
      refine ⟨?_, ?_, ?_⟩
      · simp [hue, hu]
      · right
        simp [hue]
      · intro hc
        rcases hc with hc | hc
        · cases hc
        · injection hc with hc
          exact absurd hc hu

/-- C8: every enriched record carries as its image either the absence
marker or a nonempty URL returned by the image oracle; a failed call or
an empty result always becomes the absence marker, and the image field
is never the empty string. -/
theorem c8_image_marker (f : List Char → Option (List Char))
    (recs : List MaterialRecord) (r : EnrichedRecord) (hr : r ∈ enrich f recs) :
    r.image ≠ [] ∧
      (r.image = noImage ∨ f r.base.material = some r.image) ∧
      ((f r.base.material = none ∨ f r.base.material = some []) → r.image = noImage) := by
  rcases List.mem_map.mp hr with ⟨b, _, rfl⟩
  exact attachImage_cases f b.material

/-- C8 witness: with an oracle that always fails, the enriched record
for a concrete material carries the absence marker. -/
theorem c8_witness :
    ({ base := { material := ("Steel").data, properties := [], pros := [], cons := [] },
       image := noImage } : EnrichedRecord).image = noImage :=
  (c8_image_marker (fun _ => none)
      [{ material := ("Steel").data, properties := [], pros := [], cons := [] }] _
      (by simp [enrich, attachImage])).2.2 (Or.inl rfl)

theorem getElemQ_eq_some_getD (l : List α) (i : Nat) (d : α) (h : i < l.length) :
    l[i]? = some (l.getD i d) := by
  induction l generalizing i with
  | nil => simp at h
  | cons a l ih =>
    cases i with
    | zero => simp
    | succ i => simpa using ih i (by simpa using h)

theorem recordFromLinesChecked_eq (ls : List (List Char)) :
    recordFromLinesChecked ls = some (recordFromLines ls) := by
  unfold recordFromLinesChecked recordFromLines
  by_cases h2 : 2 < ls.length
  · rw [if_pos h2, if_pos h2,
      getElemQ_eq_some_getD ls 0 [] (by omega),
      getElemQ_eq_some_getD ls 1 [] (by omega),
      getElemQ_eq_some_getD ls 2 [] (by omega)]
    by_cases h3 : 3 < ls.length
    · rw [getElemQ_eq_some_getD ls 3 [] (by omega)]
      simp [h3]
    · simp [h3]
  · rw [if_neg h2, if_neg h2]

theorem parseBlockChecked_eq (b : List Char) :
    parseBlockChecked b = some (parseBlock b) := by
  unfold parseBlockChecked parseBlock
  by_cases h : (pyStrip b).isEmpty
  · simp [h]
  · simp [h, recordFromLinesChecked_eq]

/-- C7: the record extraction of display_table is total.  Modelling
Python indexing as a fallible read, every line access is guarded, so
for every input string the checked interpretation raises nothing and
returns exactly the records of the total model. -/
theorem c7_extraction_total (output : List Char) :
    blocksChecked (middleParagraphs output) = some (display_table_records output) := by
  unfold display_table_records
  suffices h : ∀ bl : List (List Char), blocksChecked bl = some (bl.filterMap parseBlock) from
    h _
  intro bl
  induction bl with
  | nil => rfl
  | cons b bs ih =>
    have hpb := parseBlockChecked_eq b
    cases hb : parseBlock b with
    | none =>
      rw [hb] at hpb
      simp [blocksChecked, hpb, ih, List.filterMap_cons, hb]
    | some r =>
      rw [hb] at hpb
      simp [blocksChecked, hpb, ih, List.filterMap_cons, hb]

theorem noNN_tail {c : Char} {s : List Char} (h : noNN (c :: s) = true) :
    noNN s = true := by
  cases s with
  | nil => rfl
  | cons d rest => exact (Bool.and_eq_true_iff.mp h).2

theorem noNN_of_append_left : ∀ t u : List Char, noNN (t ++ u) = true → noNN t = true := by
  intro t
  induction t with
  | nil => intro u _; rfl
  | cons a t ih =>
    intro u h
    cases t with
    | nil => rfl
    | cons b t' =>
      have h' := Bool.and_eq_true_iff.mp h
      exact Bool.and_eq_true_iff.mpr ⟨h'.1, ih u h'.2⟩

theorem noNN_dropWhile (p : Char → Bool) (s : List Char) (h : noNN s = true) :
    noNN (s.dropWhile p) = true := by
  induction s with
  | nil => exact h
  | cons c rest ih =>
    by_cases hc : p c
    · rw [List.dropWhile_cons_of_pos hc]
      exact ih (noNN_tail h)
    · rwa [List.dropWhile_cons_of_neg hc]

theorem dropTrailingSpace_append_back (s : List Char) :
    ∃ u, dropTrailingSpace s ++ u = s := by
  induction s with
  | nil => exact ⟨[], rfl⟩
  | cons c rest ih =>
    obtain ⟨u, hu⟩ := ih
    by_cases hr : (dropTrailingSpace rest).isEmpty
    · by_cases hc : pyIsSpace c
      · exact ⟨c :: rest, by simp [dropTrailingSpace, hr, hc]⟩
      · exact ⟨rest, by simp [dropTrailingSpace, hr, hc]⟩
    · exact ⟨u, by simp [dropTrailingSpace, hr]; exact hu⟩

theorem noNN_dropTrailingSpace (s : List Char) (h : noNN s = true) :
    noNN (dropTrailingSpace s) = true := by
  obtain ⟨u, hu⟩ := dropTrailingSpace_append_back s
  exact noNN_of_append_left _ u (by rwa [hu])

theorem noNN_pyStrip (s : List Char) (h : noNN s = true) :
    noNN (pyStrip s) = true :=
  noNN_dropTrailingSpace _ (noNN_dropWhile _ _ h)

theorem splitNN_ne_nil : ∀ s : List Char, splitNN s ≠ [] := by
  intro s
  match s with
  | [] => simp [splitNN]
  | [c] => simp [splitNN]
  | c :: d :: rest =>
    unfold splitNN
    by_cases h : c = '\n' ∧ d = '\n'
    · simp [h]
    · rw [if_neg h]
      rcases hsp : splitNN (d :: rest) with _ | ⟨y, ys⟩ <;> simp

theorem splitNN_head_eq :
    ∀ (s y : List Char) (ys : List (List Char)),
      splitNN s = y :: ys → y ≠ [] → y.head? = s.head? := by
  intro s y ys heq hy
  match s with
  | [] =>
    rw [splitNN] at heq
    cases heq
    exact absurd rfl hy
  | [c] =>
    rw [splitNN] at heq
    cases heq
    rfl
  | c :: d :: rest =>
    rw [splitNN] at heq
    by_cases h : c = '\n' ∧ d = '\n'
    · rw [if_pos h] at heq
      cases heq
      exact absurd rfl hy
    · rw [if_neg h] at heq
      rcases hsp : splitNN (d :: rest) with _ | ⟨z, zs⟩
      · exact absurd hsp (splitNN_ne_nil _)
      · rw [hsp] at heq
        cases heq
        rfl

theorem noNN_splitNN :
    ∀ (n : Nat) (s : List Char), s.length ≤ n → ∀ b ∈ splitNN s, noNN b = true := by
  intro n
  induction n with
  | zero =>
    intro s hs b hb
    have hnil : s = [] := List.eq_nil_of_length_eq_zero (Nat.le_zero.mp hs)
    subst hnil
    rw [splitNN] at hb
    simp at hb
    subst hb
    rfl
  | succ n ih =>
    intro s hs b hb
    rcases s with _ | ⟨c, rest⟩
    · rw [splitNN] at hb
      simp at hb
      subst hb
      rfl
    · rcases rest with _ | ⟨d, r2⟩
      · rw [splitNN] at hb
        simp at hb
        subst hb
        rfl
      · by_cases h : c = '\n' ∧ d = '\n'
        · rw [splitNN, if_pos h] at hb
          rcases List.mem_cons.mp hb with rfl | hb2
          · rfl
          · exact ih r2 (by simp at hs ⊢; omega) b hb2
        · rw [splitNN, if_neg h] at hb
          rcases hsp : splitNN (d :: r2) with _ | ⟨y, ys⟩
          · exact absurd hsp (splitNN_ne_nil _)
          · rw [hsp] at hb
            have hlen : (d :: r2).length ≤ n := by simp at hs ⊢; omega
            have hall : ∀ b' ∈ splitNN (d :: r2), noNN b' = true := ih (d :: r2) hlen
            rcases List.mem_cons.mp hb with rfl | hb2
            · have hy : noNN y = true := hall y (by rw [hsp]; exact List.mem_cons_self _ _)
              rcases y with _ | ⟨e, y'⟩
              · rfl
              · have hhead : (e :: y').head? = (d :: r2).head? :=
                  splitNN_head_eq _ _ _ hsp (by simp)
                simp at hhead
                subst hhead
                have hcd : (c == '\n' && e == '\n') = false := by
                  by_cases hc : c = '\n' <;> by_cases hd : e = '\n' <;>
                    simp [hc, hd] at h ⊢
                show (!(c == '\n' && e == '\n') && noNN (e :: y')) = true
                rw [hcd]
                simpa using hy
            · exact hall b (by rw [hsp]; exact List.mem_cons_of_mem _ hb2)

theorem splitChar_ne_nil (sep : Char) : ∀ s : List Char, splitChar sep s ≠ [] := by
  intro s
  match s with
  | [] => simp [splitChar]
  | c :: rest =>
    unfold splitChar
    by_cases h : c = sep
    · simp [h]
    · rw [if_neg h]
      rcases hsp : splitChar sep rest with _ | ⟨y, ys⟩ <;> simp

theorem dropWhile_head_not (p : Char → Bool) :
    ∀ (s : List Char) (c : Char), (s.dropWhile p).head? = some c → p c = false := by
  intro s
  induction s with
  | nil => intro c h; simp at h
  | cons a rest ih =>
    intro c h
    by_cases ha : p a
    · rw [List.dropWhile_cons_of_pos ha] at h
      exact ih c h
    · rw [List.dropWhile_cons_of_neg ha] at h
      simp at h
      subst h
      exact Bool.eq_false_iff.mpr ha

theorem dropTrailingSpace_head (s : List Char) (h : dropTrailingSpace s ≠ []) :
    (dropTrailingSpace s).head? = s.head? := by
  cases s with
  | nil => simp [dropTrailingSpace] at h
  | cons c rest =>
    by_cases hr : (dropTrailingSpace rest).isEmpty
    · by_cases hc : pyIsSpace c
      · exact absurd (by simp [dropTrailingSpace, hr, hc]) h
      · simp [dropTrailingSpace, hr, hc]
    · simp [dropTrailingSpace, hr]

theorem dropTrailingSpace_getLast_not_space :
    ∀ (s : List Char) (c : Char),
      (dropTrailingSpace s).getLast? = some c → pyIsSpace c = false := by
  intro s
  induction s with
  | nil => intro c h; simp [dropTrailingSpace] at h
  | cons a rest ih =>
    intro c h
    by_cases hr : (dropTrailingSpace rest).isEmpty
    · by_cases ha : pyIsSpace a
      · simp [dropTrailingSpace, hr, ha] at h
      · simp [dropTrailingSpace, hr, ha] at h
        subst h
        exact Bool.eq_false_iff.mpr ha
    · have hstep : dropTrailingSpace (a :: rest) = a :: dropTrailingSpace rest := by
        simp [dropTrailingSpace, hr]
      rw [hstep] at h
      rcases hd : dropTrailingSpace rest with _ | ⟨x, xs⟩
      · exact absurd (by simp [hd]) hr
      · rw [hd, List.getLast?_cons_cons] at h
        exact ih c (by rw [hd]; exact h)

theorem pyStrip_head_not_space (s : List Char) (c : Char)
    (h : (pyStrip s).head? = some c) : pyIsSpace c = false := by
  unfold pyStrip at h
  have hne : dropTrailingSpace (s.dropWhile pyIsSpace) ≠ [] := by
    intro hh
    rw [hh] at h
    simp at h
  rw [dropTrailingSpace_head _ hne] at h
  exact dropWhile_head_not _ _ _ h

theorem pyStrip_getLast_not_space (s : List Char) (c : Char)
    (h : (pyStrip s).getLast? = some c) : pyIsSpace c = false :=
  dropTrailingSpace_getLast_not_space _ _ h

theorem mem_splitChar_ne_nil :
    ∀ (n : Nat) (s : List Char), s.length ≤ n → s ≠ [] →
      s.head? ≠ some '\n' → noNN s = true → s.getLast? ≠ some '\n' →
      ∀ l ∈ splitChar '\n' s, l ≠ [] := by
  intro n
  induction n with
  | zero =>
    intro s hs hne _ _ _ l _
    exact absurd (List.eq_nil_of_length_eq_zero (Nat.le_zero.mp hs)) hne
  | succ n ih =>
    intro s hs hne hh hnn hlast l hl
    rcases s with _ | ⟨c, rest⟩
    · exact absurd rfl hne
    · have hc : ¬ c = '\n' := by
        intro hcc
        exact hh (by simp [hcc])
      rw [splitChar, if_neg hc] at hl
      rcases rest with _ | ⟨d, r2⟩
      · have hl' : l ∈ [[c]] := hl
        simp at hl'
        subst hl'
        simp
      · by_cases hd : d = '\n'
        · subst hd
          have hsp : splitChar '\n' ('\n' :: r2) = [] :: splitChar '\n' r2 := by
            rw [splitChar, if_pos rfl]
          rw [hsp] at hl
          have hl' : l ∈ [c] :: splitChar '\n' r2 := hl
          rcases List.mem_cons.mp hl' with rfl | hl2
          · simp
          · have hr2ne : r2 ≠ [] := by
              intro hr2
              subst hr2
              exact hlast (by simp)
            have hnn2 : noNN ('\n' :: r2) = true := noNN_tail hnn
            have hhead2 : r2.head? ≠ some '\n' := by
              rcases r2 with _ | ⟨e, r3⟩
              · exact absurd rfl hr2ne
              · have hpair : (!('\n' == '\n' && e == '\n') && noNN (e :: r3)) = true := hnn2
                intro hcon
                simp at hcon
                subst hcon
                simp at hpair
            have hlast2 : r2.getLast? ≠ some '\n' := by
              rcases r2 with _ | ⟨e, r3⟩
              · exact absurd rfl hr2ne
              · intro hcon
                apply hlast
                rw [List.getLast?_cons_cons, List.getLast?_cons_cons]
                exact hcon
            exact ih r2 (by simp at hs ⊢; omega) hr2ne hhead2 (noNN_tail hnn2) hlast2 l hl2
        · rcases hsp : splitChar '\n' (d :: r2) with _ | ⟨y, ys⟩
          · exact absurd hsp (splitChar_ne_nil _ _)
          · rw [hsp] at hl
            have hl' : l ∈ (c :: y) :: ys := hl
            rcases List.mem_cons.mp hl' with rfl | hl2
            · simp
            · have hd' : (d :: r2).head? ≠ some '\n' := by simp [hd]
              have hlast' : (d :: r2).getLast? ≠ some '\n' := by
                rw [List.getLast?_cons_cons] at hlast
                exact hlast
              exact ih (d :: r2) (by simp at hs ⊢; omega) (by simp) hd'
                (noNN_tail hnn) hlast' l (by rw [hsp]; exact List.mem_cons_of_mem _ hl2)

theorem mem_of_mem_dropFirstLast {α : Type} {b : α} {l : List α}
    (h : b ∈ dropFirstLast l) : b ∈ l :=
  List.drop_subset 1 l (List.dropLast_subset _ h)

/-- C2: a paragraph block of a raw response materializes a record if
and only if it yields at least three non-empty lines; a block with
fewer non-empty lines is dropped with no partial record.  For such
blocks every line produced by the split is non-empty, so the code
check on the plain line count coincides with the non-empty-line
count. -/
theorem c2_three_nonempty_lines (raw b : List Char)
    (hb : b ∈ middleParagraphs raw) :
    (parseBlock b).isSome = true ↔
      3 ≤ ((splitChar '\n' (pyStrip b)).filter (fun l => !l.isEmpty)).length := by
  have hbmem : b ∈ splitNN (pyStrip raw) := mem_of_mem_dropFirstLast hb
  have hnnb : noNN b = true :=
    noNN_splitNN (pyStrip raw).length (pyStrip raw) le_rfl b hbmem
  by_cases hempty : pyStrip b = []
  · simp [parseBlock, hempty, splitChar]
  · have hlines : ∀ l ∈ splitChar '\n' (pyStrip b), l ≠ [] := by
      apply mem_splitChar_ne_nil (pyStrip b).length (pyStrip b) le_rfl hempty ?_
        (noNN_pyStrip b hnnb) ?_
      · intro hcon
        exact absurd (pyStrip_head_not_space b '\n' hcon) (by decide)
      · intro hcon
        exact absurd (pyStrip_getLast_not_space b '\n' hcon) (by decide)
    have hfilter :
        (splitChar '\n' (pyStrip b)).filter (fun l => !l.isEmpty) =
          splitChar '\n' (pyStrip b) := by
      apply List.filter_eq_self.mpr
      intro a ha
      simp [List.isEmpty_iff]
      exact hlines a ha
    rw [hfilter]
    have hie : (pyStrip b).isEmpty = false := by
      simp [List.isEmpty_iff, hempty]
    by_cases h2 : 2 < (splitChar '\n' (pyStrip b)).length
    · simp [parseBlock, recordFromLines, hie, h2]
      omega
    · simp [parseBlock, recordFromLines, hie, h2]
      omega

/-- C2 witness: the Aluminum block of the end-to-end example is a
middle paragraph of its response, and the equivalence evaluates on
it. -/
theorem c2_witness :
    ("1. Aluminum:\nProperties: - lightweight\nPros: - corrosion resistant\nCons: - costlier than steel").data ∈
        middleParagraphs ("Intro.\n\n1. Aluminum:\nProperties: - lightweight\nPros: - corrosion resistant\nCons: - costlier than steel\n\n2. Steel:\nProperties: - strong\nPros: - cheap\n\nOutro.").data ∧
      ((parseBlock ("1. Aluminum:\nProperties: - lightweight\nPros: - corrosion resistant\nCons: - costlier than steel").data).isSome = true ↔
        3 ≤ ((splitChar '\n' (pyStrip ("1. Aluminum:\nProperties: - lightweight\nPros: - corrosion resistant\nCons: - costlier than steel").data)).filter (fun l => !l.isEmpty)).length) :=
  ⟨by decide,
    c2_three_nonempty_lines
      ("Intro.\n\n1. Aluminum:\nProperties: - lightweight\nPros: - corrosion resistant\nCons: - costlier than steel\n\n2. Steel:\nProperties: - strong\nPros: - cheap\n\nOutro.").data
      ("1. Aluminum:\nProperties: - lightweight\nPros: - corrosion resistant\nCons: - costlier than steel").data
      (by decide)⟩

theorem all_dropLast (l : List Char) (p : Char → Bool) (h : l.all p = true) :
    l.dropLast.all p = true := by
  rw [List.all_eq_true] at h ⊢
  intro x hx
  exact h x (List.dropLast_subset _ hx)

theorem all_stripTrailingColon_eq (r : List Char) :
    (stripTrailingColon r).all pyIsSpace = blankOrColonLine r := by
  unfold stripTrailingColon blankOrColonLine
  rcases hlast : r.getLast? with _ | c
  · simp
  · by_cases hc : c = ':'
    · subst hc
      by_cases hall : r.all pyIsSpace = true
      · simp [hall, all_dropLast r _ hall]
      · have hfalse : r.all pyIsSpace = false := Bool.eq_false_iff.mpr hall
        simp [hfalse]
    · simp [hc]

/-- C3 counterexample: a block whose first line is only the ordinal
emits a record whose name is the empty string, falsifying the claim
that emitted names are always non-empty. -/
theorem c3_counterexample :
    (display_table_records ("Intro.\n\n1.\nProperties: x\nPros: y\n\nOutro.").data).map
        MaterialRecord.material = [[]] := by
  decide

/-- C3 amended: the name of an emitted record is empty exactly when the
first line of its block consists of an optional ordinal-number-and-
period run followed by whitespace and an optional final colon; for any
other first line the emitted name is non-empty. -/
theorem c3_amended_name_empty_iff (b : List Char) (r : MaterialRecord)
    (h : parseBlock b = some r) :
    r.material = [] ↔
      nameVoidShape ((splitChar '\n' (pyStrip b)).getD 0 []) = true := by
  have hmat : r.material =
      pyStrip (reSubNamePattern ((splitChar '\n' (pyStrip b)).getD 0 [])) := by
    unfold parseBlock at h
    by_cases h0 : (pyStrip b).isEmpty
    · simp [h0] at h
    · simp only [h0, if_false, Bool.false_eq_true] at h
      unfold recordFromLines at h
      by_cases h2 : 2 < (splitChar '\n' (pyStrip b)).length
      · rw [if_pos h2] at h
        cases h
        rfl
      · rw [if_neg h2] at h
        exact absurd h (by simp)
  rw [hmat, pyStrip_eq_nil_iff]
  unfold reSubNamePattern nameVoidShape
  rw [all_stripTrailingColon_eq]

/-- C3 witness: evaluating the amended equivalence on a concrete block
with an ordinal-only first line. -/
theorem c3_witness :
    ((parseBlock ("1.\nProperties: x\nPros: y").data).getD
        { material := [], properties := [], pros := [], cons := [] }).material = [] := by
  have h : parseBlock ("1.\nProperties: x\nPros: y").data =
      some { material := [], properties := ("x").data, pros := ("y").data, cons := [] } := by
    decide
  rw [h]
  exact (c3_amended_name_empty_iff _ _ h).mpr (by decide)

